import Mathlib

/-!
Verification of the VTIL-Common native register-context emulator
(`amd64/emulator.cpp`) and of the 128-bit FNV-1 hash step (`util/hashable.hpp`),
over a shallow embedding.

The emulator is modelled as a byte-addressable memory (`Mem`): the C++ code
addresses the structure through `(uint8_t*) this + offset`, and `set`/`get`
are `memcpy`s of little-endian byte ranges.  The backing structure
(`emulator.hpp`) is not among the sources, so its layout is modelled from the
specification: a scratch region of `reserved_stack_size` bytes at the bottom
(it becomes the live stack during invocation), then the saved-stack-pointer
slot `__rsp`, the instruction-pointer slot `__rip`, the fifteen
general-purpose slots in the order the exchange sequence names them, and the
flags slot `v_rflags`.
-/

namespace VTILVerify

/-- The emulator structure viewed as `uint8_t*`: a byte-addressable memory. -/
def Mem : Type := Nat → Nat

/-- All stored bytes are in range; `memcpy` only ever stores bytes. -/
def Mem.Valid (f : Mem) : Prop := ∀ i, f i < 256

/-- `memcpy((uint8_t*) this + off, &value, n)` with `value` a little-endian
64-bit integer: byte `off + j` receives byte `j` of `value`. -/
def writeBytes (f : Mem) (off v n : Nat) : Mem :=
  fun i => if off ≤ i ∧ i < off + n then v / 256 ^ (i - off) % 256 else f i

/-- `memcpy(&value, (uint8_t*) this + off, n)` into a zero-initialised 64-bit
little-endian `value`. -/
def readBytes (f : Mem) (off : Nat) : Nat → Nat
  | 0 => 0
  | n + 1 => f off + 256 * readBytes f (off + 1) n

/-- A full 8-byte (qword) load, as performed by the `xchg`/`push`/`pop`/`mov`
instructions of `invoke` on the 64-bit slots. -/
def readQword (f : Mem) (off : Nat) : Nat := readBytes f off 8

/-- A full 8-byte (qword) store. -/
def writeQword (f : Mem) (off v : Nat) : Mem := writeBytes f off v 8

/-- The fifteen canonical base registers `emulator::resolve` supports, i.e.
the general-purpose slots of the file (every full-width integer register
except the stack pointer). -/
inductive BaseReg : Type
  | rax | rbx | rcx | rdx | rsi | rdi | rbp
  | r8 | r9 | r10 | r11 | r12 | r13 | r14 | r15
  deriving DecidableEq

/-- Modelled from the spec: `emulator::reserved_stack_size`, the compile-time
size of the scratch region; `emulator.hpp` is not among the sources and the
spec leaves the size as a tunable constant, so a representative value is
fixed here. -/
def reserved_stack_size : Nat := 512

/-- Index of a general-purpose slot, in the order the exchange sequence of
`invoke` names the registers. -/
def BaseReg.idx : BaseReg → Nat
  | .rax => 0
  | .rbx => 1
  | .rcx => 2
  | .rdx => 3
  | .rsi => 4
  | .rdi => 5
  | .rbp => 6
  | .r8 => 7
  | .r9 => 8
  | .r10 => 9
  | .r11 => 10
  | .r12 => 11
  | .r13 => 12
  | .r14 => 13
  | .r15 => 14

/-- Modelled from the spec: byte offset of the saved-stack-pointer slot
`__rsp`.  The spec places the scratch region at the bottom of the structure
(`[0, reserved_stack_size)`) and the slots above it. -/
def off_rsp : Nat := reserved_stack_size

/-- Modelled from the spec: byte offset of the instruction-pointer slot
`__rip`. -/
def off_rip : Nat := reserved_stack_size + 8

/-- Modelled from the spec: byte offset, from the structure's own base
address, of the slot `v_<reg>` owned by a base register (the address
`emulator::resolve` computes as `(uint8_t*) &v_<reg> - (uint8_t*) this`). -/
def slotOff (b : BaseReg) : Nat := reserved_stack_size + 16 + 8 * b.idx

/-- Modelled from the spec: byte offset of the flags slot `v_rflags`, placed
after the general-purpose slots. -/
def off_rflags : Nat := reserved_stack_size + 136

/-- An `x86_reg` architectural register identifier (the raw enumeration
value handed to `emulator::resolve`). -/
abbrev X86Reg : Type := Nat

/-- The canonical base register reported by `x86::resolve_mapping`: one of
the fifteen bases the `switch` in `emulator::resolve` handles, or any other
register, for which the `switch` falls into `unreachable()`. -/
inductive X86Base : Type
  | supported (b : BaseReg)
  | other (code : Nat)
  deriving DecidableEq

/-- The triple `(base register, offset within base, size in bytes)` returned
by `x86::resolve_mapping`. -/
structure RegisterMapping where
  base_reg : X86Base
  offset : Nat
  size : Nat

/-- The external RegisterResolver boundary (`x86::resolve_mapping`), a pure
function from register identifiers to mappings. -/
def Resolver : Type := X86Reg → RegisterMapping

/-- `emulator::resolve`: delegates to the resolver, maps the base register to
the file's slot and returns `(offset of the value from this, byte count)`.
An unsupported base register falls into `unreachable()`, the fatal path,
modelled as `none`. -/
def emuResolve (m : Resolver) (r : X86Reg) : Option (Nat × Nat) :=
  let t := m r
  match t.base_reg with
  | X86Base.supported b => some (slotOff b + t.offset, t.size)
  | X86Base.other _ => none

/-- `emulator::set`: resolve, then
`memcpy((uint8_t*) this + off, &value, sz)`. -/
def emuSet (m : Resolver) (f : Mem) (r : X86Reg) (v : Nat) : Option Mem :=
  match emuResolve m r with
  | some (off, sz) => some (writeBytes f off v sz)
  | none => none

/-- `emulator::get`: resolve, then
`uint64_t value = 0; memcpy(&value, (uint8_t*) this + off, sz)`. -/
def emuGet (m : Resolver) (f : Mem) (r : X86Reg) : Option Nat :=
  match emuResolve m r with
  | some (off, sz) => some (readBytes f off sz)
  | none => none

/-- `emulator::get` in state-passing form: the method is `const` and contains
no store into the file, so it returns the read value together with the file
it executed against. -/
def emuGetS (m : Resolver) (f : Mem) (r : X86Reg) : Option (Nat × Mem) :=
  match emuResolve m r with
  | some (off, sz) => some (readBytes f off sz, f)
  | none => none

/-- The live hardware register state `invoke` exchanges with: the fifteen
general-purpose registers, `rflags` and the stack pointer. -/
structure HWState where
  gp : BaseReg → Nat
  rflags : Nat
  rsp : Nat

/-- All live register values fit in 64 bits. -/
def HWState.Valid (s : HWState) : Prop :=
  (∀ b, s.gp b < 2 ^ 64) ∧ s.rflags < 2 ^ 64 ∧ s.rsp < 2 ^ 64

/-- One `xchg reg, [rsp - sd] emulator.v_reg` instruction: the slot and the
live register swap their values atomically. -/
def xchg1 (s : Mem × (BaseReg → Nat)) (b : BaseReg) : Mem × (BaseReg → Nat) :=
  (writeQword s.1 (slotOff b) (s.2 b),
    Function.update s.2 b (readQword s.1 (slotOff b)))

/-- The registers in the order the exchange sequence names them. -/
def regOrder : List BaseReg :=
  [.rax, .rbx, .rcx, .rdx, .rsi, .rdi, .rbp,
   .r8, .r9, .r10, .r11, .r12, .r13, .r14, .r15]

/-- The fifteen `xchg` instructions of one exchange phase, in program
order. -/
def xchgAll (f : Mem) (g : BaseReg → Nat) : Mem × (BaseReg → Nat) :=
  regOrder.foldl xchg1 (f, g)

/-- One `pushfq; push [rsp - sd] emulator.v_rflags; popfq; pop [rsp - sd]
emulator.v_rflags` block, entered with the live stack pointer at
`base + reserved_stack_size`, so that pushes land at the top of the scratch
region.  The `push` executes after `pushfq` has already moved the stack
pointer down by 8, so its `[rsp - sd]`-relative source operand addresses the
qword 8 bytes below the `v_rflags` slot; the `pop` computes its destination
address after the stack pointer has been incremented back, so it writes the
`v_rflags` slot itself.  Returns the new memory and the new live flags
value (flags are modelled as an opaque 64-bit word). -/
def flagsXchg (f : Mem) (fl : Nat) : Mem × Nat :=
  let f1 := writeQword f (reserved_stack_size - 8) fl
  let t := readQword f1 (off_rflags - 8)
  let f2 := writeQword f1 (reserved_stack_size - 16) t
  let newfl := readQword f2 (reserved_stack_size - 16)
  let f3 := writeQword f2 off_rflags (readQword f2 (reserved_stack_size - 8))
  (f3, newfl)

/-- `emulator::invoke`, instruction by instruction.  The invoked native
routine is modelled as a pure transform of the register/flags state (the
component does not model memory side effects of the callee); a routine that
returns normally rebalances the stack pointer, so the live stack pointer is
back at `base + reserved_stack_size` after the `call`.  `retAddr` is the
return address the `call` pushes onto the scratch stack; `base` is the
address of the file itself (`this`). -/
def invoke (routine : HWState → HWState) (retAddr base : Nat) (f : Mem)
    (hw : HWState) (rip : Nat) : Mem × HWState :=
  -- __rip = routine_pointer;
  let f1 := writeQword f off_rip rip
  -- mov rax, rsp : the live rax is overwritten with the live stack pointer
  let rax0 := hw.rsp
  -- mov rsp, this ; add rsp, sd ; mov [rsp - sd] emulator.__rsp, rax
  let f2 := writeQword f1 off_rsp rax0
  -- phase 3: the fifteen xchg instructions (the hardware rax entering the
  -- exchange is the clobbered one, holding the saved stack pointer)
  let p := xchgAll f2 (Function.update hw.gp BaseReg.rax rax0)
  -- phase 3: EFLAGS exchange block
  let q := flagsXchg p.1 hw.rflags
  -- call [rsp - sd] emulator.__rip : pushes the return address onto the
  -- scratch stack and runs the routine under the exchanged-in context
  let f5 := writeQword q.1 (reserved_stack_size - 8) retAddr
  let hwOut := routine ⟨p.2, q.2, base + reserved_stack_size - 8⟩
  -- phase 5: EFLAGS exchange block
  let q2 := flagsXchg f5 hwOut.rflags
  -- phase 5: the fifteen xchg instructions
  let p2 := xchgAll q2.1 hwOut.gp
  -- mov rsp, [rsp - sd] emulator.__rsp
  (p2.1, ⟨p2.2, q2.2, readQword p2.1 off_rsp⟩)

/-- The register/flags state the invoked routine observes on entry (derived
characterisation, established by `invoke_mem_slot` below): each
general-purpose register holds its virtual slot's qword; the flags hold the
qword read from 8 bytes below the `v_rflags` slot — under this layout the
caller's `r15` value reduced mod 2^64, not the virtual flags; the stack
pointer points at the pushed return address at the top of the scratch
region. -/
def entryState (base : Nat) (f : Mem) (hw : HWState) : HWState :=
  ⟨fun b => readQword f (slotOff b), hw.gp BaseReg.r15 % 2 ^ 64,
    base + reserved_stack_size - 8⟩

/-- Modelled from the spec: a native routine computing `dst = a + b` with the
host convention's first two argument registers and its return-value register
(the Windows x64 convention of this MSVC/ICC build: arguments in `rcx` and
`rdx`, result in `rax`), with 64-bit wrap-around. -/
def addRoutine : HWState → HWState :=
  fun s =>
    ⟨Function.update s.gp BaseReg.rax
        ((s.gp BaseReg.rcx + s.gp BaseReg.rdx) % 2 ^ 64),
      s.rflags, s.rsp⟩

/-- One byte step of `hash_t::operator<<` (`util/hashable.hpp`): XOR the byte
into the low word, then multiply the 128-bit value by the 128-bit FNV prime
`{0x0000000001000000, 0x000000000000013B}`: `_umul128` of the low words gives
the new low word and the high part of their product, and the two cross
products are added (with 64-bit wrap-around) into the high word.  The state
is `(value[0], value[1])`, i.e. (high word, low word). -/
def hashStep (v0 v1 b : Nat) : Nat × Nat :=
  let la := v1 ^^^ b
  let ha := v0
  let hb := 0x0000000001000000
  let lb := 0x000000000000013B
  let lo := la * lb % 2 ^ 64
  let hi0 := la * lb / 2 ^ 64
  let hi1 := (hi0 + ha * lb % 2 ^ 64) % 2 ^ 64
  let hi2 := (hi1 + la * hb % 2 ^ 64) % 2 ^ 64
  (hi2, lo)

/-- A concrete RegisterResolver used to exercise the theorems: identifier 0
is the full 64-bit `rax`, 1 a 4-byte view of `rcx`, 2 a 1-byte view of `rax`
at byte offset 1 (an `ah`-style alias), 3 the full `rcx`, 4 the full `rdx`,
and every other identifier a register whose base the file does not
support. -/
def m0 : Resolver := fun r =>
  if r = 0 then ⟨X86Base.supported BaseReg.rax, 0, 8⟩
  else if r = 1 then ⟨X86Base.supported BaseReg.rcx, 0, 4⟩
  else if r = 2 then ⟨X86Base.supported BaseReg.rax, 1, 1⟩
  else if r = 3 then ⟨X86Base.supported BaseReg.rcx, 0, 8⟩
  else if r = 4 then ⟨X86Base.supported BaseReg.rdx, 0, 8⟩
  else ⟨X86Base.other r, 0, 0⟩

/-- The file of the alias scenario after `set` of the full 64-bit `rax`. -/
def memV : Mem := writeBytes (fun _ => 0) (slotOff BaseReg.rax) 0x1122334455667788 8

/-- The file of the alias scenario after the further `set` of the one-byte
`rax` view at byte offset 1. -/
def memW : Mem := writeBytes memV (slotOff BaseReg.rax + 1) 0xAB 1

/-- The file of the end-to-end scenario after `set(rcx, 3)`. -/
def memA : Mem := writeBytes (fun _ => 0) (slotOff BaseReg.rcx) 3 8

/-- The file of the end-to-end scenario after `set(rcx, 3); set(rdx, 4)`. -/
def memB : Mem := writeBytes memA (slotOff BaseReg.rdx) 4 8

theorem writeBytes_outside (f : Mem) (off v n i : Nat) (h : i < off ∨ off + n ≤ i) :
    writeBytes f off v n i = f i := by
  unfold writeBytes
  rw [if_neg (by omega)]

theorem writeBytes_valid (f : Mem) (off v n : Nat) (hf : Mem.Valid f) :
    Mem.Valid (writeBytes f off v n) := by
  intro i
  unfold writeBytes
  by_cases h : off ≤ i ∧ i < off + n
  · rw [if_pos h]
    exact Nat.mod_lt _ (by norm_num)
  · rw [if_neg h]
    exact hf i

theorem readBytes_writeBytes_inside (f : Mem) (v off m : Nat) :
    ∀ (n a : Nat), off ≤ a → a + n ≤ off + m →
      readBytes (writeBytes f off v m) a n = v / 256 ^ (a - off) % 256 ^ n := by
  intro n
  induction n with
  | zero => intro a _ _; simp [readBytes, Nat.mod_one]
  | succ n ih =>
      intro a h1 h2
      have hw : writeBytes f off v m a = v / 256 ^ (a - off) % 256 := by
        unfold writeBytes
        rw [if_pos ⟨h1, by omega⟩]
      have hih := ih (a + 1) (by omega) (by omega)
      have hshift : v / 256 ^ (a + 1 - off) = v / 256 ^ (a - off) / 256 := by
        rw [show a + 1 - off = (a - off) + 1 by omega, pow_succ, Nat.div_div_eq_div_mul]
      simp only [readBytes]
      rw [hw, hih, hshift, pow_succ']
      exact Nat.mod_mul.symm

theorem readBytes_writeBytes_disjoint (f : Mem) (v off m : Nat) :
    ∀ (n a : Nat), a + n ≤ off ∨ off + m ≤ a →
      readBytes (writeBytes f off v m) a n = readBytes f a n := by
  intro n
  induction n with
  | zero => intro a _; simp [readBytes]
  | succ n ih =>
      intro a h
      simp only [readBytes]
      rw [writeBytes_outside f off v m a (by omega), ih (a + 1) (by omega)]

theorem readBytes_lt (f : Mem) (hf : Mem.Valid f) :
    ∀ (n a : Nat), readBytes f a n < 256 ^ n := by
  intro n
  induction n with
  | zero => intro a; simp [readBytes]
  | succ n ih =>
      intro a
      have h1 := hf a
      have h2 := ih (a + 1)
      simp only [readBytes]
      rw [pow_succ']
      generalize (256 : Nat) ^ n = P at h2 ⊢
      omega

theorem readBytes_split (f : Mem) :
    ∀ (n1 n2 a : Nat),
      readBytes f a (n1 + n2) = readBytes f a n1 + 256 ^ n1 * readBytes f (a + n1) n2 := by
  intro n1
  induction n1 with
  | zero => intro n2 a; simp [readBytes]
  | succ n1 ih =>
      intro n2 a
      rw [show n1 + 1 + n2 = (n1 + n2) + 1 by omega]
      simp only [readBytes]
      rw [ih n2 (a + 1), show a + 1 + n1 = a + (n1 + 1) by omega, pow_succ']
      ring

theorem rq_wq_same (f : Mem) (o v : Nat) :
    readQword (writeQword f o v) o = v % 2 ^ 64 := by
  have h := readBytes_writeBytes_inside f v o 8 8 o le_rfl (by omega)
  simp only [readQword, writeQword] at *
  rw [h, Nat.sub_self, pow_zero, Nat.div_one]
  norm_num

theorem rq_wq_ne (f : Mem) (o1 o2 v : Nat) (h : o1 + 8 ≤ o2 ∨ o2 + 8 ≤ o1) :
    readQword (writeQword f o2 v) o1 = readQword f o1 := by
  unfold readQword writeQword
  exact readBytes_writeBytes_disjoint f v o2 8 8 o1 (by omega)

theorem xchgAll_gp (f : Mem) (g : BaseReg → Nat) (b : BaseReg) :
    (xchgAll f g).2 b = readQword f (slotOff b) := by
  cases b <;>
    simp +decide [xchgAll, regOrder, List.foldl_cons, List.foldl_nil, xchg1,
      Function.update_apply, slotOff, BaseReg.idx, reserved_stack_size, rq_wq_ne]

theorem xchgAll_snd (f : Mem) (g : BaseReg → Nat) :
    (xchgAll f g).2 = fun b => readQword f (slotOff b) :=
  funext (xchgAll_gp f g)

theorem xchgAll_mem_slot (f : Mem) (g : BaseReg → Nat) (b : BaseReg) :
    readQword (xchgAll f g).1 (slotOff b) = g b % 2 ^ 64 := by
  cases b <;>
    simp +decide [xchgAll, regOrder, List.foldl_cons, List.foldl_nil, xchg1,
      Function.update_apply, slotOff, BaseReg.idx, reserved_stack_size,
      rq_wq_ne, rq_wq_same]

theorem xchgAll_mem_rsp (f : Mem) (g : BaseReg → Nat) :
    readQword (xchgAll f g).1 off_rsp = readQword f off_rsp := by
  simp +decide [xchgAll, regOrder, List.foldl_cons, List.foldl_nil, xchg1,
    slotOff, BaseReg.idx, reserved_stack_size, off_rsp, rq_wq_ne]

theorem flagsXchg_snd (f : Mem) (fl : Nat) :
    (flagsXchg f fl).2 = readQword f (off_rflags - 8) % 2 ^ 64 := by
  simp +decide [flagsXchg, off_rflags, reserved_stack_size, rq_wq_ne, rq_wq_same]

theorem flagsXchg_mem_slot (f : Mem) (fl : Nat) (b : BaseReg) :
    readQword (flagsXchg f fl).1 (slotOff b) = readQword f (slotOff b) := by
  cases b <;>
    simp +decide [flagsXchg, off_rflags, reserved_stack_size, slotOff,
      BaseReg.idx, rq_wq_ne]

theorem flagsXchg_mem_rsp (f : Mem) (fl : Nat) :
    readQword (flagsXchg f fl).1 off_rsp = readQword f off_rsp := by
  simp +decide [flagsXchg, off_rflags, off_rsp, reserved_stack_size, rq_wq_ne]

theorem readQword_prelude_slot (f : Mem) (rip x : Nat) (b : BaseReg) :
    readQword (writeQword (writeQword f off_rip rip) off_rsp x) (slotOff b)
      = readQword f (slotOff b) := by
  cases b <;>
    simp +decide [slotOff, BaseReg.idx, reserved_stack_size, off_rip, off_rsp,
      rq_wq_ne]

theorem rq_wq_scratch_slot (f : Mem) (v : Nat) (b : BaseReg) :
    readQword (writeQword f (reserved_stack_size - 8) v) (slotOff b)
      = readQword f (slotOff b) := by
  cases b <;>
    simp +decide [slotOff, BaseReg.idx, reserved_stack_size, rq_wq_ne]

theorem invoke_hw_gp (routine : HWState → HWState) (retAddr base : Nat)
    (f : Mem) (hw : HWState) (rip : Nat) (b : BaseReg) :
    ((invoke routine retAddr base f hw rip).2).gp b
      = if b = BaseReg.rax then hw.rsp % 2 ^ 64 else hw.gp b % 2 ^ 64 := by
  simp only [invoke]
  rw [xchgAll_gp, flagsXchg_mem_slot, rq_wq_scratch_slot, flagsXchg_mem_slot,
    xchgAll_mem_slot, Function.update_apply]
  by_cases hb : b = BaseReg.rax <;> simp [hb]

theorem invoke_hw_rflags (routine : HWState → HWState) (retAddr base : Nat)
    (f : Mem) (hw : HWState) (rip : Nat) :
    ((invoke routine retAddr base f hw rip).2).rflags
      = hw.gp BaseReg.r15 % 2 ^ 64 := by
  simp only [invoke]
  rw [flagsXchg_snd, show off_rflags - 8 = slotOff BaseReg.r15 from by decide,
    rq_wq_scratch_slot, flagsXchg_mem_slot, xchgAll_mem_slot,
    Function.update_apply]
  simp

theorem invoke_hw_rsp (routine : HWState → HWState) (retAddr base : Nat)
    (f : Mem) (hw : HWState) (rip : Nat) :
    ((invoke routine retAddr base f hw rip).2).rsp = hw.rsp % 2 ^ 64 := by
  simp only [invoke]
  rw [xchgAll_mem_rsp, flagsXchg_mem_rsp, rq_wq_ne _ _ _ _ (by decide),
    flagsXchg_mem_rsp, xchgAll_mem_rsp, rq_wq_same]

theorem invoke_mem_slot (routine : HWState → HWState) (retAddr base : Nat)
    (f : Mem) (hw : HWState) (rip : Nat) (b : BaseReg) :
    readQword ((invoke routine retAddr base f hw rip).1) (slotOff b)
      = (routine (entryState base f hw)).gp b % 2 ^ 64 := by
  simp only [invoke]
  rw [xchgAll_mem_slot, xchgAll_snd]
  simp only [readQword_prelude_slot]
  rw [flagsXchg_snd, show off_rflags - 8 = slotOff BaseReg.r15 from by decide,
    xchgAll_mem_slot, Function.update_apply]
  simp only [entryState]
  simp

/-- C1: for every supported register `r` and every 64-bit value `v`,
`set(r, v)` followed by `get(r)` on the same file returns `v` truncated to
the resolved width of `r` and zero-extended to 64 bits, regardless of the
file's prior contents. -/
theorem c1_set_then_get (m : Resolver) (f : Mem) (r : X86Reg) (off sz v : Nat)
    (hres : emuResolve m r = some (off, sz)) (hsz : sz ≤ 8) (hv : v < 2 ^ 64) :
    (emuSet m f r v).bind (fun f2 => emuGet m f2 r) = some (v % 256 ^ sz) := by
  simp only [emuSet, emuGet, hres, Option.bind]
  rw [readBytes_writeBytes_inside f v off sz sz off le_rfl le_rfl]
  simp

theorem c1_witness :
    emuResolve m0 1 = some (slotOff BaseReg.rcx, 4) ∧ (4 : Nat) ≤ 8 ∧
    (300 : Nat) < 2 ^ 64 ∧
    (emuSet m0 (fun _ => 0) 1 300).bind (fun f2 => emuGet m0 f2 1)
      = some (300 % 256 ^ 4) :=
  ⟨by decide, by decide, by decide,
    c1_set_then_get m0 (fun _ => 0) 1 (slotOff BaseReg.rcx) 4 300 (by decide)
      (by decide) (by decide)⟩

/-- C2: `set` writes exactly the resolved `width` bytes at the resolved
offset and leaves every other byte of the file unchanged; in particular for
a wide alias `full` (width 8 at offset `o`) and a narrow alias `lo` (width
`w` at offset `o + a` inside the same slot), `set(full, V); set(lo, v2);
get(full)` returns `V` with only `lo`'s byte range replaced by `v2`, the
untouched high bytes surviving. -/
theorem c2_set_frame_and_alias :
    (∀ (m : Resolver) (f : Mem) (r : X86Reg) (off sz v : Nat) (f2 : Mem),
        emuResolve m r = some (off, sz) → emuSet m f r v = some f2 →
        ∀ i, i < off ∨ off + sz ≤ i → f2 i = f i)
    ∧ (∀ (m : Resolver) (f : Mem) (rfull rlo : X86Reg)
        (o a w V v2 : Nat) (ff fl : Mem),
        emuResolve m rfull = some (o, 8) → emuResolve m rlo = some (o + a, w) →
        a + w ≤ 8 → V < 2 ^ 64 →
        emuSet m f rfull V = some ff → emuSet m ff rlo v2 = some fl →
        emuGet m fl rfull
          = some (V % 256 ^ a + v2 % 256 ^ w * 256 ^ a
              + V / 256 ^ (a + w) * 256 ^ (a + w))) := by
  constructor
  · intro m f r off sz v f2 hres hset i hi
    simp only [emuSet, hres, Option.some.injEq] at hset
    subst hset
    exact writeBytes_outside f off v sz i hi
  · intro m f rfull rlo o a w V v2 ff fl h1 h2 haw hV hs1 hs2
    simp only [emuSet, h1] at hs1
    simp only [emuSet, h2] at hs2
    rw [Option.some.injEq] at hs1 hs2
    subst hs1
    subst hs2
    simp only [emuGet, h1, Option.some.injEq]
    have hcount :
        readBytes (writeBytes (writeBytes f o V 8) (o + a) v2 w) o 8
          = readBytes (writeBytes (writeBytes f o V 8) (o + a) v2 w) o
              (a + (w + (8 - (a + w)))) := by
      rw [show a + (w + (8 - (a + w))) = 8 from by omega]
    rw [hcount, readBytes_split, readBytes_split]
    rw [readBytes_writeBytes_disjoint _ v2 (o + a) w a o (by omega)]
    rw [readBytes_writeBytes_inside f V o 8 a o le_rfl (by omega)]
    rw [readBytes_writeBytes_inside _ v2 (o + a) w w (o + a) le_rfl le_rfl]
    rw [readBytes_writeBytes_disjoint _ v2 (o + a) w (8 - (a + w)) (o + a + w)
      (by omega)]
    rw [readBytes_writeBytes_inside f V o 8 (8 - (a + w)) (o + a + w) (by omega)
      (by omega)]
    rw [show o + a + w - o = a + w by omega]
    have hdiv : V / 256 ^ (a + w) < 256 ^ (8 - (a + w)) := by
      rw [Nat.div_lt_iff_lt_mul (by positivity), ← pow_add]
      rw [show 8 - (a + w) + (a + w) = 8 by omega]
      calc V < 2 ^ 64 := hV
        _ = 256 ^ 8 := by norm_num
    rw [Nat.mod_eq_of_lt hdiv]
    simp only [Nat.sub_self, pow_zero, Nat.div_one]
    ring

theorem c2_witness :
    emuResolve m0 0 = some (slotOff BaseReg.rax, 8) ∧
    emuResolve m0 2 = some (slotOff BaseReg.rax + 1, 1) ∧
    memV (slotOff BaseReg.rax + 9) = (fun _ => 0 : Mem) (slotOff BaseReg.rax + 9) ∧
    emuGet m0 memW 0
      = some (0x1122334455667788 % 256 ^ 1 + 0xAB % 256 ^ 1 * 256 ^ 1
          + 0x1122334455667788 / 256 ^ 2 * 256 ^ 2) :=
  ⟨by decide, by decide,
    c2_set_frame_and_alias.1 m0 (fun _ => 0) 0 (slotOff BaseReg.rax) 8
      0x1122334455667788 memV (by decide) rfl (slotOff BaseReg.rax + 9)
      (by decide),
    c2_set_frame_and_alias.2 m0 (fun _ => 0) 0 2 (slotOff BaseReg.rax) 1 1
      0x1122334455667788 0xAB memV memW (by decide) (by decide) (by decide)
      (by decide) rfl rfl⟩

/-- C3: for every register identifier whose resolved base register is not one
of the 15 supported general-purpose bases, `resolve` (and hence `set` and
`get`) deterministically takes the fatal `unreachable()` path on every call
and never returns an offset/width pair. -/
theorem c3_unsupported_fatal (m : Resolver) (r : X86Reg) (c : Nat)
    (h : (m r).base_reg = X86Base.other c) :
    emuResolve m r = none ∧ (∀ f v, emuSet m f r v = none)
      ∧ (∀ f, emuGet m f r = none) := by
  have hres : emuResolve m r = none := by
    simp only [emuResolve, h]
  exact ⟨hres, fun f v => by simp only [emuSet, hres], fun f => by
    simp only [emuGet, hres]⟩

theorem c3_witness :
    (m0 99).base_reg = X86Base.other 99 ∧ emuResolve m0 99 = none ∧
    emuSet m0 (fun _ => 0) 99 5 = none ∧ emuGet m0 (fun _ => 0) 99 = none :=
  ⟨by decide, (c3_unsupported_fatal m0 99 99 (by decide)).1,
    (c3_unsupported_fatal m0 99 99 (by decide)).2.1 (fun _ => 0) 5,
    (c3_unsupported_fatal m0 99 99 (by decide)).2.2 (fun _ => 0)⟩

/-- C8: for every supported register, `resolve` returns the pair (byte
offset of the base register's slot within the file plus the sub-register
byte offset supplied by the RegisterResolver, width in bytes), the offset
being relative to the file's own base address. -/
theorem c8_resolve_layout (m : Resolver) (r : X86Reg) (b : BaseReg)
    (h : (m r).base_reg = X86Base.supported b) :
    emuResolve m r = some (slotOff b + (m r).offset, (m r).size) := by
  simp only [emuResolve, h]

theorem c8_witness :
    (m0 2).base_reg = X86Base.supported BaseReg.rax ∧
    emuResolve m0 2 = some (slotOff BaseReg.rax + (m0 2).offset, (m0 2).size) :=
  ⟨by decide, c8_resolve_layout m0 2 BaseReg.rax (by decide)⟩

/-- C9: `get` modifies no byte of the file: in state-passing form it returns
the very file it was called on, every slot and the scratch region
included. -/
theorem c9_get_pure (m : Resolver) (f : Mem) (r : X86Reg) (p : Nat × Mem)
    (h : emuGetS m f r = some p) : p.2 = f := by
  cases hq : emuResolve m r with
  | none =>
      simp only [emuGetS, hq] at h
      exact Option.noConfusion h
  | some q =>
      obtain ⟨off, sz⟩ := q
      simp only [emuGetS, hq, Option.some.injEq] at h
      rw [← h]

theorem c9_witness :
    emuGetS m0 (fun _ => 0) 0 = some (0, fun _ => 0) ∧
    ((0, fun _ => 0) : Nat × Mem).2 = (fun _ => 0 : Mem) :=
  ⟨rfl, c9_get_pure m0 (fun _ => 0) 0 (0, fun _ => 0) rfl⟩

/-- C4 counterexample: with pre-invocation hardware rax = 1 and stack
pointer = 2, after invoking a routine that changes nothing the hardware rax
holds 2 (the pre-invocation stack-pointer value, left there by
`mov rax, rsp` before the exchange saved it), not its pre-invocation
value 1 — so the claim that every general-purpose hardware register is
restored exactly is false. -/
theorem c4_counterexample :
    ((invoke id 0 0 (fun _ => 0) ⟨fun _ => 1, 0, 2⟩ 0).2).gp BaseReg.rax
      ≠ (⟨fun _ => 1, 0, 2⟩ : HWState).gp BaseReg.rax := by
  rw [invoke_hw_gp]
  decide

/-- C4 (amended): after `invoke` returns, the fourteen general-purpose
hardware registers other than rax, and the stack pointer, hold exactly
their pre-invocation values; rax instead holds the pre-invocation
stack-pointer value (it was overwritten by `mov rax, rsp` before the
exchange saved it), and the hardware flags hold the qword sitting 8 bytes
below the flags slot — under the modelled layout the caller's r15 value —
loaded by the flag-exchange `push` whose operand address the preceding
`pushfq` has shifted, rather than the pre-invocation flags. -/
theorem c4_amended (routine : HWState → HWState) (retAddr base : Nat)
    (f : Mem) (hw : HWState) (rip : Nat) (hv : hw.Valid) :
    (∀ b, b ≠ BaseReg.rax →
      ((invoke routine retAddr base f hw rip).2).gp b = hw.gp b)
    ∧ ((invoke routine retAddr base f hw rip).2).gp BaseReg.rax = hw.rsp
    ∧ ((invoke routine retAddr base f hw rip).2).rsp = hw.rsp
    ∧ ((invoke routine retAddr base f hw rip).2).rflags = hw.gp BaseReg.r15 := by
  obtain ⟨hgp, hfl, hsp⟩ := hv
  refine ⟨fun b hb => ?_, ?_, ?_, ?_⟩
  · rw [invoke_hw_gp, if_neg hb, Nat.mod_eq_of_lt (hgp b)]
  · rw [invoke_hw_gp, if_pos rfl, Nat.mod_eq_of_lt hsp]
  · rw [invoke_hw_rsp, Nat.mod_eq_of_lt hsp]
  · rw [invoke_hw_rflags, Nat.mod_eq_of_lt (hgp BaseReg.r15)]

theorem c4_amended_witness :
    (⟨fun _ => 1, 0, 2⟩ : HWState).Valid ∧
    ((invoke id 0 0 (fun _ => 0) ⟨fun _ => 1, 0, 2⟩ 0).2).gp BaseReg.rbx = 1 ∧
    ((invoke id 0 0 (fun _ => 0) ⟨fun _ => 1, 0, 2⟩ 0).2).gp BaseReg.rax = 2 ∧
    ((invoke id 0 0 (fun _ => 0) ⟨fun _ => 1, 0, 2⟩ 0).2).rsp = 2 ∧
    ((invoke id 0 0 (fun _ => 0) ⟨fun _ => 1, 0, 2⟩ 0).2).rflags = 1 := by
  have hv : (⟨fun _ => 1, 0, 2⟩ : HWState).Valid :=
    ⟨fun _ => (by norm_num : (1 : Nat) < 2 ^ 64), by norm_num, by norm_num⟩
  obtain ⟨h1, h2, h3, h4⟩ := c4_amended id 0 0 (fun _ => 0) ⟨fun _ => 1, 0, 2⟩ 0 hv
  exact ⟨hv, h1 BaseReg.rbx (by decide), h2, h3, h4⟩

/-- C5: invoking a native routine that performs only a return (changes no
register) leaves the value of every general-purpose slot other than the
convention's return-value register rax exactly as it was set beforehand. -/
theorem c5_identity_no_leak (retAddr base : Nat) (f : Mem) (hw : HWState)
    (rip : Nat) (hf : Mem.Valid f) (b : BaseReg) (hb : b ≠ BaseReg.rax) :
    readQword ((invoke id retAddr base f hw rip).1) (slotOff b)
      = readQword f (slotOff b) := by
  rw [invoke_mem_slot]
  simp only [id_eq, entryState]
  have h := readBytes_lt f hf 8 (slotOff b)
  have h2 : (256 : Nat) ^ 8 = 2 ^ 64 := by norm_num
  rw [h2] at h
  exact Nat.mod_eq_of_lt h

theorem c5_witness :
    Mem.Valid (fun _ => 0) ∧ BaseReg.rbx ≠ BaseReg.rax ∧
    readQword ((invoke id 0 0 (fun _ => 0) ⟨fun _ => 1, 0, 2⟩ 0).1)
        (slotOff BaseReg.rbx)
      = readQword (fun _ => 0) (slotOff BaseReg.rbx) :=
  ⟨fun i => by norm_num, by decide,
    c5_identity_no_leak 0 0 (fun _ => 0) ⟨fun _ => 1, 0, 2⟩ 0
      (fun i => by norm_num) BaseReg.rbx (by decide)⟩

/-- C6: the real hardware stack pointer observed immediately after `invoke`
returns equals exactly its value immediately before the call: it is saved
into the saved-stack-pointer slot in phase 2 and restored from it at the
end. -/
theorem c6_stack_integrity (routine : HWState → HWState) (retAddr base : Nat)
    (f : Mem) (hw : HWState) (rip : Nat) (h : hw.rsp < 2 ^ 64) :
    ((invoke routine retAddr base f hw rip).2).rsp = hw.rsp := by
  rw [invoke_hw_rsp, Nat.mod_eq_of_lt h]

theorem c6_witness :
    (2 : Nat) < 2 ^ 64 ∧
    ((invoke id 0 0 (fun _ => 0) ⟨fun _ => 1, 0, 2⟩ 0).2).rsp = 2 :=
  ⟨by decide, c6_stack_integrity id 0 0 (fun _ => 0) ⟨fun _ => 1, 0, 2⟩ 0
    (by decide)⟩

/-- C7: with `entry_point` a native routine computing `dst = a + b` over the
convention's first two argument registers (rcx, rdx) and its return-value
register (rax), `set(rcx, 3); set(rdx, 4); invoke` makes `get` of rax
return 7, and every general-purpose slot outside the argument/return set is
unchanged from its pre-call value. -/
theorem c7_add_scenario (m : Resolver) (f : Mem) (retAddr base rip : Nat)
    (hw : HWState) (rc rd ra : X86Reg) (f1 f2 : Mem)
    (hrc : emuResolve m rc = some (slotOff BaseReg.rcx, 8))
    (hrd : emuResolve m rd = some (slotOff BaseReg.rdx, 8))
    (hra : emuResolve m ra = some (slotOff BaseReg.rax, 8))
    (hf : Mem.Valid f)
    (hs1 : emuSet m f rc 3 = some f1)
    (hs2 : emuSet m f1 rd 4 = some f2) :
    emuGet m ((invoke addRoutine retAddr base f2 hw rip).1) ra = some 7
    ∧ ∀ b, b ≠ BaseReg.rax → b ≠ BaseReg.rcx → b ≠ BaseReg.rdx →
        readQword ((invoke addRoutine retAddr base f2 hw rip).1) (slotOff b)
          = readQword f2 (slotOff b) := by
  simp only [emuSet, hrc, Option.some.injEq] at hs1
  subst hs1
  simp only [emuSet, hrd, Option.some.injEq] at hs2
  subst hs2
  have hbridgew : ∀ (g : Mem) (o v : Nat), writeBytes g o v 8 = writeQword g o v :=
    fun _ _ _ => rfl
  have hvalid2 : Mem.Valid (writeBytes (writeBytes f (slotOff BaseReg.rcx) 3 8)
      (slotOff BaseReg.rdx) 4 8) :=
    writeBytes_valid _ _ _ _ (writeBytes_valid _ _ _ _ hf)
  have hrcx : readQword (writeBytes (writeBytes f (slotOff BaseReg.rcx) 3 8)
      (slotOff BaseReg.rdx) 4 8) (slotOff BaseReg.rcx) = 3 := by
    rw [hbridgew, hbridgew, rq_wq_ne, rq_wq_same] <;> decide
  have hrdx : readQword (writeBytes (writeBytes f (slotOff BaseReg.rcx) 3 8)
      (slotOff BaseReg.rdx) 4 8) (slotOff BaseReg.rdx) = 4 := by
    rw [hbridgew, hbridgew, rq_wq_same] <;> decide
  constructor
  · simp only [emuGet, hra, Option.some.injEq]
    show readQword ((invoke addRoutine retAddr base _ hw rip).1)
      (slotOff BaseReg.rax) = 7
    rw [invoke_mem_slot]
    simp only [addRoutine, entryState, Function.update_apply, if_pos rfl,
      if_true]
    rw [hrcx, hrdx]
    decide
  · intro b hb1 hb2 hb3
    rw [invoke_mem_slot]
    simp only [addRoutine, entryState, Function.update_apply, if_neg hb1]
    have h := readBytes_lt _ hvalid2 8 (slotOff b)
    have h2 : (256 : Nat) ^ 8 = 2 ^ 64 := by norm_num
    rw [h2] at h
    exact Nat.mod_eq_of_lt h

theorem c7_witness :
    emuResolve m0 3 = some (slotOff BaseReg.rcx, 8) ∧
    emuResolve m0 4 = some (slotOff BaseReg.rdx, 8) ∧
    emuResolve m0 0 = some (slotOff BaseReg.rax, 8) ∧
    emuSet m0 (fun _ => 0) 3 3 = some memA ∧
    emuSet m0 memA 4 4 = some memB ∧
    emuGet m0 ((invoke addRoutine 0 0 memB ⟨fun _ => 9, 0, 2⟩ 0).1) 0 = some 7 ∧
    readQword ((invoke addRoutine 0 0 memB ⟨fun _ => 9, 0, 2⟩ 0).1)
        (slotOff BaseReg.rbx)
      = readQword memB (slotOff BaseReg.rbx) := by
  have h := c7_add_scenario m0 (fun _ => 0) 0 0 0 ⟨fun _ => 9, 0, 2⟩ 3 4 0
    memA memB (by decide) (by decide) (by decide) (fun i => by norm_num) rfl rfl
  exact ⟨by decide, by decide, by decide, rfl, rfl, h.1,
    h.2 BaseReg.rbx (by decide) (by decide) (by decide)⟩

theorem mul128_lo_hi (ha la hb lb : Nat) :
    ((la * lb / 2 ^ 64 + ha * lb % 2 ^ 64) % 2 ^ 64 + la * hb % 2 ^ 64) % 2 ^ 64
        * 2 ^ 64 + la * lb % 2 ^ 64
      = (ha * 2 ^ 64 + la) * (hb * 2 ^ 64 + lb) % 2 ^ 128 := by
  have hexp : (ha * 2 ^ 64 + la) * (hb * 2 ^ 64 + lb)
      = ha * hb * 2 ^ 128 + (ha * lb + la * hb) * 2 ^ 64 + la * lb := by
    ring
  rw [hexp]
  generalize ha * lb = X
  generalize la * hb = Y
  generalize la * lb = P
  generalize ha * hb = Z
  have e1 : (2 : Nat) ^ 64 = 18446744073709551616 := by norm_num
  have e2 : (2 : Nat) ^ 128 = 340282366920938463463374607431768211456 := by
    norm_num
  rw [e1, e2]
  omega

/-- C10: one byte step of `operator<<` computes exactly the 128-bit product
of the current 128-bit hash state (low word XORed with the byte) with the
128-bit FNV prime, reduced mod 2^128: the `_umul128` of the low words plus
the two wrap-around cross-product additions into the high word implement the
full 128x128-bit multiplication modulo 2^128. -/
theorem c10_hash_step (h0 h1 b : Nat) (hh0 : h0 < 2 ^ 64) (hh1 : h1 < 2 ^ 64)
    (hb : b < 256) :
    (hashStep h0 h1 b).1 * 2 ^ 64 + (hashStep h0 h1 b).2
      = (h0 * 2 ^ 64 + (h1 ^^^ b))
          * (0x0000000001000000 * 2 ^ 64 + 0x000000000000013B) % 2 ^ 128 := by
  have h := mul128_lo_hi h0 (h1 ^^^ b) 0x0000000001000000 0x000000000000013B
  simpa only [hashStep] using h

theorem c10_witness :
    (0x6C62272E07BB0142 : Nat) < 2 ^ 64 ∧ (0x62B821756295C58D : Nat) < 2 ^ 64 ∧
    (0x41 : Nat) < 256 ∧
    (hashStep 0x6C62272E07BB0142 0x62B821756295C58D 0x41).1 * 2 ^ 64
        + (hashStep 0x6C62272E07BB0142 0x62B821756295C58D 0x41).2
      = (0x6C62272E07BB0142 * 2 ^ 64 + (0x62B821756295C58D ^^^ 0x41))
          * (0x0000000001000000 * 2 ^ 64 + 0x000000000000013B) % 2 ^ 128 :=
  ⟨by norm_num, by norm_num, by norm_num,
    c10_hash_step 0x6C62272E07BB0142 0x62B821756295C58D 0x41 (by norm_num)
      (by norm_num) (by norm_num)⟩

end VTILVerify
